import Mathlib

/-!
Verification of the hybrid-search score-fusion engine described by this
repository, together with the frontend message-parsing utilities.

The fusion engine itself (normalizer, fusion strategies, weight selector,
coordinator) is described by the design notes in
levia/agents/search/new_agent.md and by the specification, but its code lives
in an external backend service; the definitions in the namespace
HybridFusion are therefore modelled from the specification text.  The
definitions in the namespace Frontend are shallow embeddings of
frontend/src/utils/messageParser.js.
-/

namespace HybridFusion

/-- Document identifiers, as returned by the external document store. -/
abbrev DocId := String

/-- Relevance scores, modelled as exact rationals. -/
abbrev Score := ℚ

/-- Modelled from the spec: a RetrievalResult (section 3) is a list of
(document_id, raw_score) pairs produced by one retriever for one query,
ordered best first.  The fusion engine is not part of the repository source,
so this follows the data model of the specification. -/
abbrev RetrievalResult := List (DocId × Score)

/-- Modelled from the spec: one active retriever, its kind (lexical,
text-vector, image-vector, ...) together with the result it produced. -/
structure RetrieverInput where
  kind : String
  result : RetrievalResult
  deriving DecidableEq

/-- The raw scores of one result batch. -/
def scoresOf (rs : RetrievalResult) : List Score := rs.map (fun p => p.2)

/-- Smallest raw score of a batch (0 for the empty batch, which is never
used: the empty batch normalizes to the empty batch). -/
def minScore (rs : RetrievalResult) : Score :=
  match scoresOf rs with
  | [] => 0
  | s :: t => t.foldl min s

/-- Largest raw score of a batch. -/
def maxScore (rs : RetrievalResult) : Score :=
  match scoresOf rs with
  | [] => 0
  | s :: t => t.foldl max s

/-- Modelled from the spec: the min-max normalized value of one raw score
within a batch; when all scores of the batch coincide every normalized score
is defined as 1 (section 4.1). -/
def normVal (rs : RetrievalResult) (s : Score) : Score :=
  if maxScore rs = minScore rs then 1
  else (s - minScore rs) / (maxScore rs - minScore rs)

/-- Modelled from the spec: min-max normalization of one result batch
(section 4.1); an empty batch maps to an empty batch. -/
def minMaxNormalize (rs : RetrievalResult) : RetrievalResult :=
  rs.map (fun p => (p.1, normVal rs p.2))

theorem foldl_min_le_init (l : List ℚ) (a : ℚ) : l.foldl min a ≤ a := by
  induction l generalizing a with
  | nil => exact le_refl a
  | cons b t ih => exact le_trans (ih (min a b)) (min_le_left a b)

theorem foldl_min_le_mem (l : List ℚ) (a x : ℚ) (hx : x ∈ l) : l.foldl min a ≤ x := by
  induction l generalizing a with
  | nil => cases hx
  | cons b t ih =>
    rcases List.mem_cons.1 hx with h | h
    · subst h
      exact le_trans (foldl_min_le_init t (min a x)) (min_le_right a x)
    · exact ih (min a b) h

theorem init_le_foldl_max (l : List ℚ) (a : ℚ) : a ≤ l.foldl max a := by
  induction l generalizing a with
  | nil => exact le_refl a
  | cons b t ih => exact le_trans (le_max_left a b) (ih (max a b))

theorem mem_le_foldl_max (l : List ℚ) (a x : ℚ) (hx : x ∈ l) : x ≤ l.foldl max a := by
  induction l generalizing a with
  | nil => cases hx
  | cons b t ih =>
    rcases List.mem_cons.1 hx with h | h
    · subst h
      exact le_trans (le_max_right a x) (init_le_foldl_max t (max a x))
    · exact ih (max a b) h

theorem foldl_min_mem (l : List ℚ) (a : ℚ) : l.foldl min a = a ∨ l.foldl min a ∈ l := by
  induction l generalizing a with
  | nil => exact Or.inl rfl
  | cons b t ih =>
    rcases ih (min a b) with h | h
    · rcases min_choice a b with hc | hc
      · exact Or.inl (by rw [List.foldl_cons, h, hc])
      · exact Or.inr (by rw [List.foldl_cons, h, hc]; exact List.mem_cons_self b t)
    · exact Or.inr (List.mem_cons_of_mem b h)

theorem foldl_max_mem (l : List ℚ) (a : ℚ) : l.foldl max a = a ∨ l.foldl max a ∈ l := by
  induction l generalizing a with
  | nil => exact Or.inl rfl
  | cons b t ih =>
    rcases ih (max a b) with h | h
    · rcases max_choice a b with hc | hc
      · exact Or.inl (by rw [List.foldl_cons, h, hc])
      · exact Or.inr (by rw [List.foldl_cons, h, hc]; exact List.mem_cons_self b t)
    · exact Or.inr (List.mem_cons_of_mem b h)

theorem minScore_le (rs : RetrievalResult) (x : ℚ) (hx : x ∈ scoresOf rs) :
    minScore rs ≤ x := by
  unfold minScore
  rcases hs : scoresOf rs with _ | ⟨s, t⟩
  · rw [hs] at hx; cases hx
  · rw [hs] at hx
    rcases List.mem_cons.1 hx with h | h
    · subst h; exact foldl_min_le_init t x
    · exact foldl_min_le_mem t s x h

theorem le_maxScore (rs : RetrievalResult) (x : ℚ) (hx : x ∈ scoresOf rs) :
    x ≤ maxScore rs := by
  unfold maxScore
  rcases hs : scoresOf rs with _ | ⟨s, t⟩
  · rw [hs] at hx; cases hx
  · rw [hs] at hx
    rcases List.mem_cons.1 hx with h | h
    · subst h; exact init_le_foldl_max t x
    · exact mem_le_foldl_max t s x h

theorem minScore_mem (rs : RetrievalResult) (hne : rs ≠ []) :
    minScore rs ∈ scoresOf rs := by
  unfold minScore
  rcases hs : scoresOf rs with _ | ⟨s, t⟩
  · exact absurd (List.map_eq_nil_iff.1 hs) hne
  · show t.foldl min s ∈ s :: t
    rcases foldl_min_mem t s with h | h
    · rw [h]; exact List.mem_cons_self s t
    · exact List.mem_cons_of_mem s h

theorem maxScore_mem (rs : RetrievalResult) (hne : rs ≠ []) :
    maxScore rs ∈ scoresOf rs := by
  unfold maxScore
  rcases hs : scoresOf rs with _ | ⟨s, t⟩
  · exact absurd (List.map_eq_nil_iff.1 hs) hne
  · show t.foldl max s ∈ s :: t
    rcases foldl_max_mem t s with h | h
    · rw [h]; exact List.mem_cons_self s t
    · exact List.mem_cons_of_mem s h

/-- C3: for every non-empty RetrievalResult, min-max normalization maps each
raw score s to (s - min) / (max - min) over the scores of that batch; the
maximum raw score (which is attained) maps to 1 and the minimum raw score
maps to 0, except when all raw scores of the batch are equal, in which case
every normalized score is 1. -/
theorem minmax_normalization (rs : RetrievalResult) (hne : rs ≠ []) :
    (∀ p ∈ rs, (p.1, normVal rs p.2) ∈ minMaxNormalize rs) ∧
    (maxScore rs ≠ minScore rs →
      ∀ p ∈ rs, normVal rs p.2 = (p.2 - minScore rs) / (maxScore rs - minScore rs)) ∧
    (∃ p ∈ rs, p.2 = maxScore rs) ∧
    (∃ p ∈ rs, p.2 = minScore rs) ∧
    (maxScore rs ≠ minScore rs →
      ∀ p ∈ rs, p.2 = maxScore rs → (p.1, (1 : Score)) ∈ minMaxNormalize rs) ∧
    (maxScore rs ≠ minScore rs →
      ∀ p ∈ rs, p.2 = minScore rs → (p.1, (0 : Score)) ∈ minMaxNormalize rs) ∧
    (maxScore rs = minScore rs → ∀ q ∈ minMaxNormalize rs, q.2 = 1) := by
  refine ⟨?_, ?_, ?_, ?_, ?_, ?_, ?_⟩
  · intro p hp
    exact List.mem_map_of_mem (fun p => (p.1, normVal rs p.2)) hp
  · intro hne2 p _
    unfold normVal
    rw [if_neg hne2]
  · rcases List.mem_map.1 (maxScore_mem rs hne) with ⟨p, hp, hv⟩
    exact ⟨p, hp, hv⟩
  · rcases List.mem_map.1 (minScore_mem rs hne) with ⟨p, hp, hv⟩
    exact ⟨p, hp, hv⟩
  · intro hne2 p hp hmax
    have h1 : normVal rs p.2 = 1 := by
      unfold normVal
      rw [if_neg hne2, hmax, div_self (sub_ne_zero.2 hne2)]
    refine List.mem_map.2 ⟨p, hp, ?_⟩
    show (p.1, normVal rs p.2) = (p.1, 1)
    rw [h1]
  · intro hne2 p hp hmin
    have h0 : normVal rs p.2 = 0 := by
      unfold normVal
      rw [if_neg hne2, hmin, sub_self, zero_div]
    refine List.mem_map.2 ⟨p, hp, ?_⟩
    show (p.1, normVal rs p.2) = (p.1, 0)
    rw [h0]
  · intro heq q hq
    rcases List.mem_map.1 hq with ⟨p, _, hv⟩
    rw [← hv]
    unfold normVal
    rw [if_pos heq]

/-- Witness for C3 at a concrete two-element batch. -/
theorem minmax_normalization_witness :
    (("a", (1 : ℚ)) ∈ minMaxNormalize [("a", 3), ("b", 1)]) ∧
    (("b", (0 : ℚ)) ∈ minMaxNormalize [("a", 3), ("b", 1)]) := by
  have h := minmax_normalization [("a", 3), ("b", 1)] (by decide)
  refine ⟨h.2.2.2.2.1 (by decide) ("a", 3) (by decide) (by decide),
    h.2.2.2.2.2.1 (by decide) ("b", 1) (by decide) (by decide)⟩

/-- Raw or normalized score of a document inside one result batch, when the
batch contains it. -/
def lookupScore (rs : RetrievalResult) (d : DocId) : Option Score :=
  (rs.find? (fun p => p.1 == d)).map (fun p => p.2)

/-- Modelled from the spec: normalized score of a document for one retriever;
documents absent from the result set of a retriever score 0 there
(section 4.3). -/
def normScoreOf (rs : RetrievalResult) (d : DocId) : Score :=
  (lookupScore (minMaxNormalize rs) d).getD 0

/-- Modelled from the spec: a WeightAssignment is a mapping from retriever
kind to weight (section 3), embedded as an association list; absent kinds
weigh 0. -/
def weightOf (w : List (String × ℚ)) (k : String) : ℚ :=
  ((w.find? (fun p => p.1 == k)).map (fun p => p.2)).getD 0

/-- Whether a result batch retrieved a given document. -/
def memberOf (rs : RetrievalResult) (d : DocId) : Bool :=
  rs.any (fun p => p.1 == d)

/-- One-indexed rank of a document within a rank-ordered result batch
(meaningful when the batch contains it). -/
def rankIn (rs : RetrievalResult) (d : DocId) : ℕ :=
  rs.findIdx (fun p => p.1 == d) + 1

/-- Modelled from the spec: the weighted linear combination final score
(section 4.3): the sum over retrievers of the retriever weight times the
min-max normalized score, a missing document contributing 0. -/
def linearScore (inputs : List RetrieverInput) (w : List (String × ℚ)) (d : DocId) : Score :=
  (inputs.map (fun i => weightOf w i.kind * normScoreOf i.result d)).sum

/-- Modelled from the spec: the reciprocal rank fusion final score
(section 4.3): the sum over retrievers containing the document of
1 / (k + rank), the rank being 1-indexed; absent retrievers contribute 0. -/
def rrfScore (inputs : List RetrieverInput) (k : ℚ) (d : DocId) : Score :=
  (inputs.map (fun i =>
    if memberOf i.result d then 1 / (k + (rankIn i.result d : ℚ)) else 0)).sum

/-- Modelled from the spec: the default RRF smoothing constant (section 4.3). -/
def rrfDefaultK : ℚ := 60

/-- The union of the document ids over all result sets, without duplicates. -/
def unionDocs (inputs : List RetrieverInput) : List DocId :=
  (inputs.flatMap (fun i => i.result.map (fun p => p.1))).dedup

/-- Lexicographic comparison of character lists by character code. -/
def charsLe : List Char → List Char → Bool
  | [], _ => true
  | _ :: _, [] => false
  | c :: cs, d :: ds =>
    if c.toNat < d.toNat then true
    else if d.toNat < c.toNat then false
    else charsLe cs ds

/-- Lexicographic order on strings, by character code. -/
def strLe (a b : String) : Prop := charsLe a.data b.data = true

instance : DecidableRel strLe := fun a b =>
  inferInstanceAs (Decidable (charsLe a.data b.data = true))

theorem charsLe_cons_iff (c d : Char) (cs ds : List Char) :
    charsLe (c :: cs) (d :: ds) = true ↔
      c.toNat < d.toNat ∨ (c.toNat = d.toNat ∧ charsLe cs ds = true) := by
  have hshow : charsLe (c :: cs) (d :: ds) =
      (if c.toNat < d.toNat then true
       else if d.toNat < c.toNat then false else charsLe cs ds) := rfl
  rw [hshow]
  by_cases h1 : c.toNat < d.toNat
  · rw [if_pos h1]
    simp [h1]
  · rw [if_neg h1]
    by_cases h2 : d.toNat < c.toNat
    · rw [if_pos h2]
      have hne : c.toNat ≠ d.toNat := fun he => absurd (he ▸ h2) (lt_irrefl _)
      simp [h1, hne]
    · rw [if_neg h2]
      have heq : c.toNat = d.toNat := le_antisymm (le_of_not_lt h2) (le_of_not_lt h1)
      simp [h1, heq]

theorem charsLe_total (x y : List Char) : charsLe x y = true ∨ charsLe y x = true := by
  induction x generalizing y with
  | nil => exact Or.inl rfl
  | cons c cs ih =>
    cases y with
    | nil => exact Or.inr rfl
    | cons d ds =>
      rcases Nat.lt_trichotomy c.toNat d.toNat with h | h | h
      · exact Or.inl ((charsLe_cons_iff c d cs ds).2 (Or.inl h))
      · rcases ih ds with ht | ht
        · exact Or.inl ((charsLe_cons_iff c d cs ds).2 (Or.inr ⟨h, ht⟩))
        · exact Or.inr ((charsLe_cons_iff d c ds cs).2 (Or.inr ⟨h.symm, ht⟩))
      · exact Or.inr ((charsLe_cons_iff d c ds cs).2 (Or.inl h))

theorem charsLe_trans (x y z : List Char) (hxy : charsLe x y = true)
    (hyz : charsLe y z = true) : charsLe x z = true := by
  induction x generalizing y z with
  | nil => rfl
  | cons c cs ih =>
    cases y with
    | nil => exact absurd hxy (by simp [charsLe])
    | cons d ds =>
      cases z with
      | nil => exact absurd hyz (by simp [charsLe])
      | cons e es =>
        rcases (charsLe_cons_iff c d cs ds).1 hxy with h1 | ⟨h1, t1⟩
        · rcases (charsLe_cons_iff d e ds es).1 hyz with h2 | ⟨h2, _⟩
          · exact (charsLe_cons_iff c e cs es).2 (Or.inl (lt_trans h1 h2))
          · exact (charsLe_cons_iff c e cs es).2 (Or.inl (h2 ▸ h1))
        · rcases (charsLe_cons_iff d e ds es).1 hyz with h2 | ⟨h2, t2⟩
          · exact (charsLe_cons_iff c e cs es).2 (Or.inl (h1 ▸ h2))
          · exact (charsLe_cons_iff c e cs es).2
              (Or.inr ⟨h1.trans h2, ih ds es t1 t2⟩)

theorem char_toNat_inj (a b : Char) (h : a.toNat = b.toNat) : a = b := by
  rw [← Char.ofNat_toNat a, ← Char.ofNat_toNat b, h]

theorem charsLe_antisymm (x y : List Char) (hxy : charsLe x y = true)
    (hyx : charsLe y x = true) : x = y := by
  induction x generalizing y with
  | nil =>
    cases y with
    | nil => rfl
    | cons d ds => exact absurd hyx (by simp [charsLe])
  | cons c cs ih =>
    cases y with
    | nil => exact absurd hxy (by simp [charsLe])
    | cons d ds =>
      rcases (charsLe_cons_iff c d cs ds).1 hxy with h1 | ⟨h1, t1⟩
      · rcases (charsLe_cons_iff d c ds cs).1 hyx with h2 | ⟨h2, _⟩
        · exact absurd (lt_trans h1 h2) (lt_irrefl _)
        · exact absurd (h2 ▸ h1) (lt_irrefl _)
      · rcases (charsLe_cons_iff d c ds cs).1 hyx with h2 | ⟨_, t2⟩
        · exact absurd (h1 ▸ h2) (lt_irrefl _)
        · rw [char_toNat_inj c d h1, ih ds t1 t2]

theorem charsLe_refl (x : List Char) : charsLe x x = true := by
  induction x with
  | nil => rfl
  | cons c cs ih => exact (charsLe_cons_iff c c cs cs).2 (Or.inr ⟨rfl, ih⟩)

theorem strLe_refl (a : String) : strLe a a := charsLe_refl a.data

theorem strLe_total (a b : String) : strLe a b ∨ strLe b a :=
  charsLe_total a.data b.data

theorem strLe_trans (a b c : String) (h1 : strLe a b) (h2 : strLe b c) : strLe a c :=
  charsLe_trans a.data b.data c.data h1 h2

theorem strLe_antisymm (a b : String) (h1 : strLe a b) (h2 : strLe b a) : a = b := by
  cases a with
  | mk da =>
    cases b with
    | mk db =>
      have : da = db := charsLe_antisymm da db h1 h2
      rw [this]

/-- Ordering of retriever inputs by kind, used to make fusion independent of
the adapter completion order. -/
def kindLe (a b : RetrieverInput) : Prop := strLe a.kind b.kind

instance : DecidableRel kindLe := fun a b =>
  inferInstanceAs (Decidable (strLe a.kind b.kind))

instance : IsTotal RetrieverInput kindLe :=
  ⟨fun a b => strLe_total a.kind b.kind⟩

instance : IsTrans RetrieverInput kindLe :=
  ⟨fun a b c => strLe_trans a.kind b.kind c.kind⟩

/-- Canonical presentation of the adapter results: sorted by retriever kind,
so that fusion does not depend on completion order (section 5). -/
def canonInputs (inputs : List RetrieverInput) : List RetrieverInput :=
  List.insertionSort kindLe inputs

/-- Keep the input with the strictly larger weight, the earlier one on ties. -/
def pickTop (w : List (String × ℚ)) : Option RetrieverInput → RetrieverInput →
    Option RetrieverInput
  | none, i => some i
  | some j, i => if weightOf w j.kind < weightOf w i.kind then some i else some j

/-- Modelled from the spec: the retriever with the highest weight, used by
the tie-break rule of section 4.3; among equal maximal weights the first
retriever in canonical kind order is taken (the spec does not fix this). -/
def topInput (inputs : List RetrieverInput) (w : List (String × ℚ)) :
    Option RetrieverInput :=
  inputs.foldl (pickTop w) none

/-- Raw score of a document in the highest-weight retriever, 0 when absent. -/
def rawTopScore (ci : List RetrieverInput) (w : List (String × ℚ)) (d : DocId) : Score :=
  match topInput ci w with
  | none => 0
  | some i => (lookupScore i.result d).getD 0

/-- Modelled from the spec: the document ordering used to rank fused
documents (sections 4.3 and 4.5): final score descending, then the raw score
in the highest-weight retriever descending, then document id ascending. -/
def linLe (score raw : DocId → ℚ) (d₁ d₂ : DocId) : Prop :=
  score d₂ < score d₁ ∨ (score d₁ = score d₂ ∧
    (raw d₂ < raw d₁ ∨ (raw d₁ = raw d₂ ∧ strLe d₁ d₂)))

instance (score raw : DocId → ℚ) : DecidableRel (linLe score raw) := fun d₁ d₂ => by
  unfold linLe
  infer_instance

/-- Weighted linear combination fusion over canonically ordered inputs. -/
def linearFuseCanon (ci : List RetrieverInput) (w : List (String × ℚ)) :
    List (DocId × ℚ) :=
  (List.insertionSort (linLe (linearScore ci w) (rawTopScore ci w)) (unionDocs ci)).map
    (fun d => (d, linearScore ci w d))

/-- Modelled from the spec: the weighted linear combination fusion strategy
(section 4.3): every document of the union of the result sets, paired with
its weighted linear combination score over min-max normalized batches, ranked
best first. -/
def linearFuse (inputs : List RetrieverInput) (w : List (String × ℚ)) :
    List (DocId × ℚ) :=
  linearFuseCanon (canonInputs inputs) w

/-- RRF fusion over canonically ordered inputs; ties are broken by the
lexicographic document id rule alone (section 4.3). -/
def rrfFuseCanon (ci : List RetrieverInput) (k : ℚ) : List (DocId × ℚ) :=
  (List.insertionSort (linLe (rrfScore ci k) (fun _ => 0)) (unionDocs ci)).map
    (fun d => (d, rrfScore ci k d))

/-- Modelled from the spec: the reciprocal rank fusion strategy
(section 4.3). -/
def rrfFuse (inputs : List RetrieverInput) (k : ℚ) : List (DocId × ℚ) :=
  rrfFuseCanon (canonInputs inputs) k

theorem canonInputs_perm (inputs : List RetrieverInput) :
    (canonInputs inputs).Perm inputs :=
  List.perm_insertionSort kindLe inputs

theorem linearScore_canon (inputs : List RetrieverInput) (w : List (String × ℚ))
    (d : DocId) : linearScore (canonInputs inputs) w d = linearScore inputs w d :=
  List.Perm.sum_eq ((canonInputs_perm inputs).map _)

theorem rrfScore_canon (inputs : List RetrieverInput) (k : ℚ) (d : DocId) :
    rrfScore (canonInputs inputs) k d = rrfScore inputs k d :=
  List.Perm.sum_eq ((canonInputs_perm inputs).map _)

theorem mem_unionDocs_canon (inputs : List RetrieverInput) (d : DocId)
    (hd : d ∈ unionDocs inputs) : d ∈ unionDocs (canonInputs inputs) := by
  unfold unionDocs at hd ⊢
  rw [List.mem_dedup] at hd ⊢
  exact (((canonInputs_perm inputs).flatMap_right _).mem_iff).2 hd

/-- C1: for every fusion request using the weighted linear combination
strategy over min-max normalized result sets with weight assignment w, every
document id d in the union of the result sets receives the final score
given by the sum over retrievers of weight times normalized score, the
normalized score being 0 for every retriever whose result set does not
contain d. -/
theorem linear_combination_final_score (inputs : List RetrieverInput)
    (w : List (String × ℚ)) (d : DocId) (hd : d ∈ unionDocs inputs) :
    (d, (inputs.map (fun i =>
        weightOf w i.kind * ((lookupScore (minMaxNormalize i.result) d).getD 0))).sum)
      ∈ linearFuse inputs w ∧
    ∀ s, (d, s) ∈ linearFuse inputs w →
      s = (inputs.map (fun i =>
        weightOf w i.kind * ((lookupScore (minMaxNormalize i.result) d).getD 0))).sum := by
  constructor
  · unfold linearFuse linearFuseCanon
    refine List.mem_map.2 ⟨d, ?_, ?_⟩
    · rw [List.mem_insertionSort]
      exact mem_unionDocs_canon inputs d hd
    · show (d, linearScore (canonInputs inputs) w d) = _
      rw [linearScore_canon]
      rfl
  · intro s hs
    unfold linearFuse linearFuseCanon at hs
    rcases List.mem_map.1 hs with ⟨x, _, hx⟩
    have h1 : x = d := congrArg Prod.fst hx
    have h2 : linearScore (canonInputs inputs) w x = s := congrArg Prod.snd hx
    subst h1
    rw [← h2, linearScore_canon]
    rfl

/-- Witness for C1 at a concrete one-retriever request. -/
theorem linear_combination_final_score_witness :
    ("d1", (([⟨"lex", [("d1", 2)]⟩] : List RetrieverInput).map (fun i =>
        weightOf [("lex", 1)] i.kind *
          ((lookupScore (minMaxNormalize i.result) "d1").getD 0))).sum)
      ∈ linearFuse [⟨"lex", [("d1", 2)]⟩] [("lex", 1)] :=
  (linear_combination_final_score [⟨"lex", [("d1", 2)]⟩] [("lex", 1)] "d1"
    (by with_unfolding_all decide)).1

theorem sum_if_filter (l : List RetrieverInput) (p : RetrieverInput → Bool)
    (f : RetrieverInput → ℚ) :
    (l.map (fun i => if p i then f i else 0)).sum = ((l.filter p).map f).sum := by
  induction l with
  | nil => rfl
  | cons a t ih =>
    by_cases h : p a
    · simp only [List.map_cons, List.sum_cons, if_pos h, List.filter_cons, h, ite_true, ih]
    · simp only [List.map_cons, List.sum_cons, if_neg h, List.filter_cons, h,
        Bool.false_eq_true, ite_false, zero_add, ih]

/-- C2: for every fusion request using the RRF strategy with smoothing
constant k (default 60), every document d receives the final score equal to
the sum, over exactly the retrievers whose result sets contain d, of
1 / (k + r) with r the 1-indexed rank of d in that retriever; retrievers not
containing d contribute 0. -/
theorem rrf_final_score (inputs : List RetrieverInput) (k : ℚ) (d : DocId)
    (hd : d ∈ unionDocs inputs) :
    rrfDefaultK = 60 ∧
    (d, ((inputs.filter (fun i => memberOf i.result d)).map
        (fun i => 1 / (k + (rankIn i.result d : ℚ)))).sum) ∈ rrfFuse inputs k ∧
    ∀ s, (d, s) ∈ rrfFuse inputs k →
      s = ((inputs.filter (fun i => memberOf i.result d)).map
        (fun i => 1 / (k + (rankIn i.result d : ℚ)))).sum := by
  have hfilter : rrfScore inputs k d =
      ((inputs.filter (fun i => memberOf i.result d)).map
        (fun i => 1 / (k + (rankIn i.result d : ℚ)))).sum :=
    sum_if_filter inputs _ _
  refine ⟨rfl, ?_, ?_⟩
  · unfold rrfFuse rrfFuseCanon
    refine List.mem_map.2 ⟨d, ?_, ?_⟩
    · rw [List.mem_insertionSort]
      exact mem_unionDocs_canon inputs d hd
    · show (d, rrfScore (canonInputs inputs) k d) = _
      rw [rrfScore_canon, hfilter]
  · intro s hs
    unfold rrfFuse rrfFuseCanon at hs
    rcases List.mem_map.1 hs with ⟨x, _, hx⟩
    have h1 : x = d := congrArg Prod.fst hx
    have h2 : rrfScore (canonInputs inputs) k x = s := congrArg Prod.snd hx
    subst h1
    rw [← h2, rrfScore_canon, hfilter]

theorem perm_sorted_nodupkeys_eq (l₁ : List RetrieverInput) :
    ∀ l₂ : List RetrieverInput, l₁.Perm l₂ → l₁.Sorted kindLe → l₂.Sorted kindLe →
      (l₁.map RetrieverInput.kind).Nodup → l₁ = l₂ := by
  induction l₁ with
  | nil =>
    intro l₂ hp _ _ _
    exact (hp.symm.eq_nil).symm
  | cons a t ih =>
    intro l₂ hp hs₁ hs₂ hnd
    cases l₂ with
    | nil => exact absurd hp.eq_nil (by simp)
    | cons b t₂ =>
      have hat : ∀ x ∈ t, kindLe a x := List.rel_of_sorted_cons hs₁
      have hbt : ∀ x ∈ t₂, kindLe b x := List.rel_of_sorted_cons hs₂
      have hmem_ab : b ∈ a :: t := hp.mem_iff.2 (List.mem_cons_self b t₂)
      have hmem_ba : a ∈ b :: t₂ := hp.mem_iff.1 (List.mem_cons_self a t)
      have h1 : strLe a.kind b.kind := by
        rcases List.mem_cons.1 hmem_ab with he | hin
        · rw [he]; exact strLe_refl a.kind
        · exact hat b hin
      have h2 : strLe b.kind a.kind := by
        rcases List.mem_cons.1 hmem_ba with he | hin
        · rw [he]; exact strLe_refl b.kind
        · exact hbt a hin
      have hk : a.kind = b.kind := strLe_antisymm a.kind b.kind h1 h2
      have hnd2 : (a.kind :: t.map RetrieverInput.kind).Nodup := by
        rw [List.map_cons] at hnd
        exact hnd
      have hae : b = a := by
        rcases List.mem_cons.1 hmem_ab with he | hin
        · exact he
        · have hmm : a.kind ∈ t.map RetrieverInput.kind :=
            hk ▸ List.mem_map_of_mem RetrieverInput.kind hin
          exact absurd hmm (List.nodup_cons.1 hnd2).1
      subst hae
      have hpt : t.Perm t₂ := hp.cons_inv
      rw [ih t₂ hpt hs₁.of_cons hs₂.of_cons (List.nodup_cons.1 hnd2).2]

/-- C6: for a fixed set of RetrievalResult inputs, chosen fusion strategy,
and resolved weights, fusion produces identical output (same document
ordering, same final scores) regardless of the order in which the adapter
results arrived: any permutation of the input list yields the same output
for both strategies. -/
theorem fusion_deterministic (inputs₁ inputs₂ : List RetrieverInput)
    (w : List (String × ℚ)) (k : ℚ) (hperm : inputs₁.Perm inputs₂)
    (hnd : (inputs₁.map RetrieverInput.kind).Nodup) :
    linearFuse inputs₁ w = linearFuse inputs₂ w ∧
    rrfFuse inputs₁ k = rrfFuse inputs₂ k := by
  have hcanon : canonInputs inputs₁ = canonInputs inputs₂ := by
    apply perm_sorted_nodupkeys_eq
    · exact (canonInputs_perm inputs₁).trans (hperm.trans (canonInputs_perm inputs₂).symm)
    · exact List.sorted_insertionSort kindLe inputs₁
    · exact List.sorted_insertionSort kindLe inputs₂
    · exact (((canonInputs_perm inputs₁).map RetrieverInput.kind).nodup_iff).2 hnd
  exact ⟨by unfold linearFuse; rw [hcanon], by unfold rrfFuse; rw [hcanon]⟩

/-- Witness for C6: swapping the arrival order of two adapter results leaves
both fusion outputs unchanged. -/
theorem fusion_deterministic_witness :
    linearFuse [⟨"lex", [("a", 1)]⟩, ⟨"sem", [("b", 2)]⟩] [("lex", 1)] =
      linearFuse [⟨"sem", [("b", 2)]⟩, ⟨"lex", [("a", 1)]⟩] [("lex", 1)] ∧
    rrfFuse [⟨"lex", [("a", 1)]⟩, ⟨"sem", [("b", 2)]⟩] 60 =
      rrfFuse [⟨"sem", [("b", 2)]⟩, ⟨"lex", [("a", 1)]⟩] 60 :=
  fusion_deterministic _ _ [("lex", 1)] 60
    (List.Perm.swap (⟨"sem", [("b", 2)]⟩ : RetrieverInput) ⟨"lex", [("a", 1)]⟩ [])
    (by decide)

/-- Witness for C2 at a concrete one-retriever request. -/
theorem rrf_final_score_witness :
    ("d1", (([⟨"lex", [("d1", 2)]⟩] : List RetrieverInput).filter
        (fun i => memberOf i.result "d1")).map
          (fun i => 1 / (60 + (rankIn i.result "d1" : ℚ)))|>.sum)
      ∈ rrfFuse [⟨"lex", [("d1", 2)]⟩] 60 :=
  (rrf_final_score [⟨"lex", [("d1", 2)]⟩] 60 "d1" (by with_unfolding_all decide)).2.1

theorem find?_eq_self (rs : RetrievalResult) (hnd : (rs.map Prod.fst).Nodup)
    (p : DocId × Score) (hp : p ∈ rs) :
    rs.find? (fun q => q.1 == p.1) = some p := by
  induction rs with
  | nil => cases hp
  | cons a t ih =>
    have hnd2 : (a.1 :: t.map Prod.fst).Nodup := by
      rw [List.map_cons] at hnd
      exact hnd
    rcases List.mem_cons.1 hp with he | hin
    · subst he
      exact List.find?_cons_of_pos t (by simp)
    · have hne : a.1 ≠ p.1 := by
        intro he
        exact absurd (he ▸ List.mem_map_of_mem Prod.fst hin) (List.nodup_cons.1 hnd2).1
      rw [List.find?_cons_of_neg t (by simp [hne])]
      exact ih (List.nodup_cons.1 hnd2).2 hin

theorem lookupScore_minMax (rs : RetrievalResult) (hnd : (rs.map Prod.fst).Nodup)
    (p : DocId × Score) (hp : p ∈ rs) :
    lookupScore (minMaxNormalize rs) p.1 = some (normVal rs p.2) := by
  unfold lookupScore minMaxNormalize
  rw [List.find?_map]
  have hcomp : ((fun q : DocId × Score => q.1 == p.1) ∘
      fun q : DocId × Score => (q.1, normVal rs q.2)) =
      fun q : DocId × Score => q.1 == p.1 := rfl
  rw [hcomp, find?_eq_self rs hnd p hp]
  rfl

theorem normScoreOf_eq (rs : RetrievalResult) (hnd : (rs.map Prod.fst).Nodup)
    (p : DocId × Score) (hp : p ∈ rs) :
    normScoreOf rs p.1 = normVal rs p.2 := by
  unfold normScoreOf
  rw [lookupScore_minMax rs hnd p hp]
  rfl

theorem linearScore_singleton (kname : String) (rs : RetrievalResult)
    (w : List (String × ℚ)) (d : DocId) :
    linearScore [⟨kname, rs⟩] w d = weightOf w kname * normScoreOf rs d := by
  simp [linearScore]

theorem rrfScore_singleton (kname : String) (rs : RetrievalResult) (k : ℚ) (d : DocId) :
    rrfScore [⟨kname, rs⟩] k d =
      if memberOf rs d then 1 / (k + (rankIn rs d : ℚ)) else 0 := by
  simp [rrfScore]

theorem memberOf_of_mem (rs : RetrievalResult) (p : DocId × Score) (hp : p ∈ rs) :
    memberOf rs p.1 = true :=
  List.any_eq_true.2 ⟨p, hp, by simp⟩

theorem rankIn_cons_ne (a : DocId × Score) (t : RetrievalResult) (d : DocId)
    (h : a.1 ≠ d) : rankIn (a :: t) d = rankIn t d + 1 := by
  unfold rankIn
  rw [List.findIdx_cons]
  have hb : (a.1 == d) = false := beq_eq_false_iff_ne.2 h
  simp [hb]

theorem pairwise_rankIn (rs : RetrievalResult) (hnd : (rs.map Prod.fst).Nodup) :
    rs.Pairwise (fun p q => rankIn rs p.1 < rankIn rs q.1) := by
  induction rs with
  | nil => exact List.Pairwise.nil
  | cons a t ih =>
    have hnd2 : (a.1 :: t.map Prod.fst).Nodup := by
      rw [List.map_cons] at hnd
      exact hnd
    have hhead : ∀ q ∈ t, a.1 ≠ q.1 := by
      intro q hq he
      exact absurd (he ▸ List.mem_map_of_mem Prod.fst hq) (List.nodup_cons.1 hnd2).1
    refine List.Pairwise.cons ?_ ?_
    · intro q hq
      have h1 : rankIn (a :: t) a.1 = 1 := by
        unfold rankIn
        rw [List.findIdx_cons]
        simp
      rw [h1, rankIn_cons_ne a t q.1 (hhead q hq)]
      exact Nat.lt_of_lt_of_le Nat.one_lt_two (by
        have : 1 ≤ rankIn t q.1 := Nat.le_add_left 1 _
        exact Nat.add_le_add_right this 1)
    · refine List.Pairwise.imp_of_mem ?_ (ih (List.nodup_cons.1 hnd2).2)
      intro p q hp hq hlt
      rw [rankIn_cons_ne a t p.1 (hhead p hp), rankIn_cons_ne a t q.1 (hhead q hq)]
      exact Nat.add_lt_add_right hlt 1

theorem unionDocs_singleton (kname : String) (rs : RetrievalResult)
    (hnd : (rs.map Prod.fst).Nodup) :
    unionDocs [⟨kname, rs⟩] = rs.map Prod.fst := by
  simp [unionDocs, List.dedup_eq_self.2 hnd]

/-- Counterexample to C7 as stated: for the single retriever result
[(b, 1), (a, 1)] (tied raw scores) and weight 1, the linear combination
strategy outputs the documents in order a, b (lexicographic tie-break),
which differs from the retriever ranking order b, a. -/
theorem single_retriever_order_counterexample :
    (linearFuse [⟨"lex", [("b", 1), ("a", 1)]⟩] [("lex", 1)]).map Prod.fst ≠
      ([("b", 1), ("a", 1)] : RetrievalResult).map Prod.fst := by
  with_unfolding_all decide

/-- C7 amended: with a single active retriever, RRF reproduces the retriever
ranking order exactly for every duplicate-free input (tied or equal raw
scores included); the linear combination strategy reproduces it when the raw
scores are strictly descending and the retriever weight is positive (with
tied raw scores the lexicographic tie-break may reorder the documents, see
the counterexample). -/
theorem single_retriever_order_amended (kname : String) (rs : RetrievalResult)
    (w : List (String × ℚ)) (k : ℚ)
    (hnd : (rs.map Prod.fst).Nodup) (hk : 0 ≤ k) :
    (rs.Pairwise (fun p q => q.2 < p.2) → 0 < weightOf w kname →
      (linearFuse [⟨kname, rs⟩] w).map Prod.fst = rs.map Prod.fst) ∧
    (rrfFuse [⟨kname, rs⟩] k).map Prod.fst = rs.map Prod.fst := by
  have hud : unionDocs (canonInputs [⟨kname, rs⟩]) = rs.map Prod.fst :=
    unionDocs_singleton kname rs hnd
  constructor
  · intro hdesc hw
    have hsorted : (rs.map Prod.fst).Sorted
        (linLe (linearScore (canonInputs [⟨kname, rs⟩]) w)
          (rawTopScore (canonInputs [⟨kname, rs⟩]) w)) := by
      rw [List.Sorted, List.pairwise_map]
      refine List.Pairwise.imp_of_mem ?_ hdesc
      intro p q hp hq hlt
      have hmm : minScore rs < maxScore rs :=
        lt_of_le_of_lt (minScore_le rs q.2 (List.mem_map_of_mem _ hq))
          (lt_of_lt_of_le hlt (le_maxScore rs p.2 (List.mem_map_of_mem _ hp)))
      have hnv : normVal rs q.2 < normVal rs p.2 := by
        unfold normVal
        simp only [if_neg (ne_of_gt hmm)]
        exact (div_lt_div_iff_of_pos_right (sub_pos.2 hmm)).2 (sub_lt_sub_right hlt _)
      refine Or.inl ?_
      show linearScore [⟨kname, rs⟩] w q.1 < linearScore [⟨kname, rs⟩] w p.1
      rw [linearScore_singleton, linearScore_singleton,
        normScoreOf_eq rs hnd p hp, normScoreOf_eq rs hnd q hq]
      exact mul_lt_mul_of_pos_left hnv hw
    unfold linearFuse linearFuseCanon
    rw [hud, hsorted.insertionSort_eq]
    simp
  · have hsorted : (rs.map Prod.fst).Sorted
        (linLe (rrfScore (canonInputs [⟨kname, rs⟩]) k) (fun _ => 0)) := by
      rw [List.Sorted, List.pairwise_map]
      refine List.Pairwise.imp_of_mem ?_ (pairwise_rankIn rs hnd)
      intro p q hp hq hlt
      refine Or.inl ?_
      show rrfScore [⟨kname, rs⟩] k q.1 < rrfScore [⟨kname, rs⟩] k p.1
      rw [rrfScore_singleton, rrfScore_singleton,
        if_pos (memberOf_of_mem rs p hp), if_pos (memberOf_of_mem rs q hq)]
      have hp1 : (0 : ℚ) < k + (rankIn rs p.1 : ℚ) := by
        have h1 : (1 : ℚ) ≤ (rankIn rs p.1 : ℚ) := by
          exact_mod_cast Nat.le_add_left 1 _
        linarith
      exact one_div_lt_one_div_of_lt hp1 (by
        have : (rankIn rs p.1 : ℚ) < (rankIn rs q.1 : ℚ) := by exact_mod_cast hlt
        linarith)
    unfold rrfFuse rrfFuseCanon
    rw [hud, hsorted.insertionSort_eq]
    simp

/-- Witness for the amended C7 at a concrete strictly descending batch. -/
theorem single_retriever_order_amended_witness :
    (linearFuse [⟨"lex", [("b", 2), ("a", 1)]⟩] [("lex", 1)]).map Prod.fst =
        ([("b", 2), ("a", 1)] : RetrievalResult).map Prod.fst ∧
    (rrfFuse [⟨"lex", [("b", 2), ("a", 1)]⟩] 60).map Prod.fst =
        ([("b", 2), ("a", 1)] : RetrievalResult).map Prod.fst := by
  have h := single_retriever_order_amended "lex" [("b", 2), ("a", 1)] [("lex", 1)] 60
    (by decide) (by with_unfolding_all decide)
  exact ⟨h.1 (by with_unfolding_all decide) (by with_unfolding_all decide), h.2⟩

/-- The lexical result set of the scenario of section 8. -/
def scenarioInputs : List RetrieverInput :=
  [⟨"lexical", [("doc1", 9), ("doc2", 3)]⟩,
   ⟨"semantic", [("doc2", 9 / 10), ("doc3", 1 / 2)]⟩]

/-- The balanced weight assignment of the scenario of section 8. -/
def scenarioWeights : List (String × ℚ) := [("lexical", 1 / 2), ("semantic", 1 / 2)]

/-- Zero-based position of a document id in a ranked id list. -/
def posOf (l : List DocId) (d : DocId) : ℕ := l.findIdx (fun x => x == d)

/-- Counterexample to C8 as stated: in the fused output for the scenario,
doc2 is NOT ranked strictly above doc1.  After min-max normalization doc2 is
the minimum of the lexical batch (normalized to 0) and the maximum of the
semantic batch (normalized to 1), so doc1 and doc2 tie at final score 1/2
and the tie-break prefers doc1. -/
theorem scenario_doc2_counterexample :
    ¬ (posOf ((linearFuse scenarioInputs scenarioWeights).map Prod.fst) "doc2" <
        posOf ((linearFuse scenarioInputs scenarioWeights).map Prod.fst) "doc1") := by
  with_unfolding_all decide

/-- C8 amended: for the scenario inputs, doc1 and doc2 tie at final score
1/2 and doc3 scores 0; doc2 ranks strictly above doc3 but ties with doc1,
and the tie resolves in favor of doc1 (higher raw score in the
highest-weight retriever, resolved to the lexical retriever), giving the
final order doc1, doc2, doc3. -/
theorem scenario_doc2_amended :
    linearFuse scenarioInputs scenarioWeights =
      [("doc1", 1 / 2), ("doc2", 1 / 2), ("doc3", 0)] ∧
    posOf ((linearFuse scenarioInputs scenarioWeights).map Prod.fst) "doc2" <
      posOf ((linearFuse scenarioInputs scenarioWeights).map Prod.fst) "doc3" := by
  with_unfolding_all decide

/-- Modelled from the spec: the error raised on caller-supplied weights with
negative entries (section 7). -/
inductive WeightError where
  | invalidWeight
  deriving DecidableEq

/-- Modelled from the spec: the Weight Selector (section 4.4): reject any
negative weight with InvalidWeightError; rescale a non-negative vector by
its sum; fall back to equal weighting 1/N over the N active retrievers when
the sum is 0. -/
def resolveWeights (w : List (String × ℚ)) (kinds : List String) :
    Except WeightError (List (String × ℚ)) :=
  if w.any (fun p => decide (p.2 < 0)) then Except.error WeightError.invalidWeight
  else if (w.map (fun p => p.2)).sum = 0 then
    Except.ok (kinds.map (fun kd => (kd, 1 / (kinds.length : ℚ))))
  else Except.ok (w.map (fun p => (p.1, p.2 / (w.map (fun p => p.2)).sum)))

/-- Failure message of one retriever adapter. -/
abbrev RetrievalError := String

/-- Modelled from the spec: terminal outcome of one coordinator request
(section 4.5): RANKED on success, FAILED with the aggregated adapter errors
when every adapter failed, and a fail-fast outcome on invalid weights. -/
inductive CoordinatorOutcome where
  | failed (errors : List (String × RetrievalError))
  | invalidWeight
  | ranked (docs : List (DocId × ℚ)) (failedAdapters : List (String × RetrievalError))

/-- The adapters that failed, with their failure causes. -/
def adapterFailures (rs : List (String × Except RetrievalError RetrievalResult)) :
    List (String × RetrievalError) :=
  rs.filterMap (fun e => match e.2 with
    | Except.error msg => some (e.1, msg)
    | Except.ok _ => none)

/-- The adapters that succeeded, as fusion inputs. -/
def adapterSuccesses (rs : List (String × Except RetrievalError RetrievalResult)) :
    List RetrieverInput :=
  rs.filterMap (fun e => match e.2 with
    | Except.ok r => some ⟨e.1, r⟩
    | Except.error _ => none)

/-- Modelled from the spec: the Hybrid Search Coordinator (section 4.5):
failed adapters are excluded from fusion and reported next to the ranked
output; when every adapter failed the request terminates FAILED with the
aggregated errors; invalid weights fail fast without attempting fusion. -/
def coordinate (rs : List (String × Except RetrievalError RetrievalResult))
    (w : List (String × ℚ)) (n : ℕ) : CoordinatorOutcome :=
  if (adapterSuccesses rs).isEmpty then CoordinatorOutcome.failed (adapterFailures rs)
  else
    match resolveWeights w ((adapterSuccesses rs).map (fun i => i.kind)) with
    | Except.error _ => CoordinatorOutcome.invalidWeight
    | Except.ok rw =>
        CoordinatorOutcome.ranked ((linearFuse (adapterSuccesses rs) rw).take n)
          (adapterFailures rs)

theorem sum_map_div (l : List ℚ) (s : ℚ) :
    (l.map (fun x => x / s)).sum = l.sum / s := by
  induction l with
  | nil => simp
  | cons a t ih => rw [List.map_cons, List.sum_cons, List.sum_cons, ih, add_div]

theorem any_neg_eq_false (w : List (String × ℚ)) (hw : ∀ p ∈ w, 0 ≤ p.2) :
    (w.any fun p => decide (p.2 < 0)) = false := by
  by_contra hne
  rcases List.any_eq_true.1 (Bool.ne_false_iff.1 hne) with ⟨p, hp, hd⟩
  exact absurd (of_decide_eq_true hd) (not_lt.2 (hw p hp))

theorem resolveWeights_ok (w : List (String × ℚ)) (kinds : List String)
    (hw : ∀ p ∈ w, 0 ≤ p.2) :
    ∃ rw, resolveWeights w kinds = Except.ok rw := by
  have hany := any_neg_eq_false w hw
  by_cases hs : (w.map (fun p => p.2)).sum = 0
  · exact ⟨kinds.map (fun kd => (kd, 1 / (kinds.length : ℚ))),
      by simp [resolveWeights, hany, hs]⟩
  · exact ⟨w.map (fun p => (p.1, p.2 / (w.map (fun p => p.2)).sum)),
      by simp [resolveWeights, hany, hs]⟩

/-- C4: the Weight Selector rejects any weight vector with a negative entry
with InvalidWeightError and the request then never reaches a ranked (fused)
outcome; a non-negative vector with positive sum is rescaled entrywise by
the sum and the resolved weights sum to exactly 1; a non-negative vector
with sum 0 resolves to equal weighting 1/N over the N active retrievers. -/
theorem weight_selector_validation (w : List (String × ℚ)) (kinds : List String) :
    ((∃ p ∈ w, p.2 < 0) →
      resolveWeights w kinds = Except.error WeightError.invalidWeight ∧
      ∀ rs n, ¬ ∃ docs failed,
        coordinate rs w n = CoordinatorOutcome.ranked docs failed) ∧
    ((∀ p ∈ w, 0 ≤ p.2) → 0 < (w.map (fun p => p.2)).sum →
      resolveWeights w kinds =
        Except.ok (w.map (fun p => (p.1, p.2 / (w.map (fun p => p.2)).sum))) ∧
      ((w.map (fun p => (p.1, p.2 / (w.map (fun p => p.2)).sum))).map
        (fun p => p.2)).sum = 1) ∧
    ((∀ p ∈ w, 0 ≤ p.2) → (w.map (fun p => p.2)).sum = 0 →
      resolveWeights w kinds =
        Except.ok (kinds.map (fun kd => (kd, 1 / (kinds.length : ℚ))))) := by
  refine ⟨?_, ?_, ?_⟩
  · rintro ⟨p, hp, hneg⟩
    have hany : (w.any fun p => decide (p.2 < 0)) = true :=
      List.any_eq_true.2 ⟨p, hp, decide_eq_true hneg⟩
    have herr : ∀ ks, resolveWeights w ks = Except.error WeightError.invalidWeight := by
      intro ks
      simp [resolveWeights, hany]
    refine ⟨herr kinds, ?_⟩
    rintro rs n ⟨docs, failed, hc⟩
    unfold coordinate at hc
    by_cases hemp : (adapterSuccesses rs).isEmpty
    · rw [if_pos hemp] at hc
      simp at hc
    · rw [if_neg hemp, herr ((adapterSuccesses rs).map (fun i => i.kind))] at hc
      simp at hc
  · intro hw hsum
    have hany := any_neg_eq_false w hw
    have hsne : (w.map (fun p => p.2)).sum ≠ 0 := ne_of_gt hsum
    refine ⟨by simp [resolveWeights, hany, hsne], ?_⟩
    have h1 : ((w.map (fun p => (p.1, p.2 / (w.map (fun p => p.2)).sum))).map
        (fun p => p.2)) = (w.map (fun p => p.2)).map
        (fun x => x / (w.map (fun p => p.2)).sum) := by
      rw [List.map_map, List.map_map]
      rfl
    rw [h1, sum_map_div, div_self hsne]
  · intro hw hsum
    have hany := any_neg_eq_false w hw
    simp [resolveWeights, hany, hsum]

/-- Witness for C4: a negative weight is rejected, and the vector (1, 3) is
rescaled to sum exactly 1. -/
theorem weight_selector_validation_witness :
    resolveWeights [("lex", -1)] [] = Except.error WeightError.invalidWeight ∧
    (([("lex", (1 : ℚ)), ("sem", 3)].map (fun p =>
        (p.1, p.2 / ([("lex", (1 : ℚ)), ("sem", 3)].map (fun p => p.2)).sum))).map
      (fun p => p.2)).sum = 1 := by
  constructor
  · exact ((weight_selector_validation [("lex", -1)] []).1
      ⟨("lex", -1), List.mem_singleton.2 rfl, by with_unfolding_all decide⟩).1
  · exact ((weight_selector_validation [("lex", 1), ("sem", 3)] []).2.1
      (by intro p hp; fin_cases hp <;> norm_num)
      (by with_unfolding_all decide)).2

/-- Whether a retriever adapter call produced a result. -/
def isOkResult : Except RetrievalError RetrievalResult → Bool
  | Except.ok _ => true
  | Except.error _ => false

theorem adapterSuccesses_eq_nil (rs : List (String × Except RetrievalError RetrievalResult))
    (h : ∀ e ∈ rs, isOkResult e.2 = false) : adapterSuccesses rs = [] := by
  induction rs with
  | nil => rfl
  | cons a t ih =>
    have ha := h a (List.mem_cons_self a t)
    unfold adapterSuccesses
    rw [List.filterMap_cons]
    cases he : a.2 with
    | ok r => rw [he] at ha; exact absurd ha (by simp [isOkResult])
    | error msg =>
      exact ih (fun e hme => h e (List.mem_cons_of_mem a hme))

theorem adapterFailures_names (rs : List (String × Except RetrievalError RetrievalResult))
    (h : ∀ e ∈ rs, isOkResult e.2 = false) :
    (adapterFailures rs).map Prod.fst = rs.map Prod.fst := by
  induction rs with
  | nil => rfl
  | cons a t ih =>
    have ha := h a (List.mem_cons_self a t)
    unfold adapterFailures
    rw [List.filterMap_cons]
    cases he : a.2 with
    | ok r => rw [he] at ha; exact absurd ha (by simp [isOkResult])
    | error msg =>
      show List.map Prod.fst ((a.1, msg) :: adapterFailures t) =
        List.map Prod.fst (a :: t)
      rw [List.map_cons, List.map_cons,
        ih (fun e hme => h e (List.mem_cons_of_mem a hme))]

/-- C5: if every configured retriever adapter fails, the request terminates
FAILED carrying an aggregated error naming each adapter with its failure
cause, never a ranked (empty or degraded) success; if at least one adapter
succeeds (and the supplied weights are non-negative, the data-model
invariant of a WeightAssignment), the failed adapters are excluded from
fusion, reported next to the result, and the request still produces a
ranked result. -/
theorem coordinator_failure_isolation
    (rs : List (String × Except RetrievalError RetrievalResult))
    (w : List (String × ℚ)) (n : ℕ) (hw : ∀ p ∈ w, 0 ≤ p.2) :
    ((∀ e ∈ rs, isOkResult e.2 = false) →
      coordinate rs w n = CoordinatorOutcome.failed (adapterFailures rs) ∧
      (adapterFailures rs).map Prod.fst = rs.map Prod.fst) ∧
    ((∃ e ∈ rs, isOkResult e.2 = true) →
      ∃ rw, resolveWeights w ((adapterSuccesses rs).map (fun i => i.kind)) =
          Except.ok rw ∧
        coordinate rs w n =
          CoordinatorOutcome.ranked ((linearFuse (adapterSuccesses rs) rw).take n)
            (adapterFailures rs)) := by
  constructor
  · intro hall
    have hnil : adapterSuccesses rs = [] := adapterSuccesses_eq_nil rs hall
    refine ⟨?_, adapterFailures_names rs hall⟩
    unfold coordinate
    rw [if_pos (by rw [hnil]; rfl)]
  · rintro ⟨e, he, hok⟩
    have hne : adapterSuccesses rs ≠ [] := by
      cases he2 : e.2 with
      | error msg => rw [he2] at hok; exact absurd hok (by simp [isOkResult])
      | ok r =>
        have : (⟨e.1, r⟩ : RetrieverInput) ∈ adapterSuccesses rs :=
          List.mem_filterMap.2 ⟨e, he, by rw [he2]⟩
        exact List.ne_nil_of_mem this
    rcases resolveWeights_ok w ((adapterSuccesses rs).map (fun i => i.kind)) hw
      with ⟨rw', hrw⟩
    refine ⟨rw', hrw, ?_⟩
    unfold coordinate
    rw [if_neg (by simpa [List.isEmpty_iff] using hne), hrw]

/-- Witness for C5: both the all-failed branch and the one-adapter-failed
branch at concrete adapter outcomes. -/
theorem coordinator_failure_isolation_witness :
    coordinate [("lex", Except.error "timeout"), ("sem", Except.error "timeout")] [] 10 =
      CoordinatorOutcome.failed [("lex", "timeout"), ("sem", "timeout")] ∧
    (∃ rw, resolveWeights []
        ((adapterSuccesses [("lex", Except.error "timeout"),
          ("sem", Except.ok [("d1", 2)])]).map (fun i => i.kind)) = Except.ok rw ∧
      coordinate [("lex", Except.error "timeout"), ("sem", Except.ok [("d1", 2)])] [] 10 =
        CoordinatorOutcome.ranked
          ((linearFuse (adapterSuccesses [("lex", Except.error "timeout"),
            ("sem", Except.ok [("d1", 2)])]) rw).take 10)
          (adapterFailures [("lex", Except.error "timeout"),
            ("sem", Except.ok [("d1", 2)])])) := by
  constructor
  · exact ((coordinator_failure_isolation
      [("lex", Except.error "timeout"), ("sem", Except.error "timeout")] [] 10
      (by intro p hp; cases hp)).1 (by decide)).1
  · exact (coordinator_failure_isolation
      [("lex", Except.error "timeout"), ("sem", Except.ok [("d1", 2)])] [] 10
      (by intro p hp; cases hp)).2
      ⟨("sem", Except.ok [("d1", 2)]), by simp, rfl⟩

end HybridFusion

namespace Frontend

/-- JavaScript values as manipulated by messageParser.js; undef stands for
the undefined value produced by accessing a missing property. -/
inductive JsonV where
  | undef
  | null
  | bool (b : Bool)
  | num (q : ℚ)
  | str (s : String)
  | arr (elems : List JsonV)
  | obj (fields : List (String × JsonV))

/-- JavaScript truthiness: undefined, null, false, 0 and the empty string
are falsy; every other value (empty arrays and objects included) is truthy. -/
def truthy : JsonV → Bool
  | JsonV.undef => false
  | JsonV.null => false
  | JsonV.bool b => b
  | JsonV.num q => decide (q ≠ 0)
  | JsonV.str s => decide (s ≠ "")
  | JsonV.arr _ => true
  | JsonV.obj _ => true

/-- JavaScript property access: undefined on a missing field and on every
non-object base (the guarded accesses of messageParser.js never reach the
throwing null-base case). -/
def getField : JsonV → String → JsonV
  | JsonV.obj fields, s =>
      ((fields.find? (fun p => p.1 == s)).map (fun p => p.2)).getD JsonV.undef
  | _, _ => JsonV.undef

/-- The JavaScript value-level or: the left value when truthy, else the
right one. -/
def jsOr (a b : JsonV) : JsonV := if truthy a then a else b

/-- The JavaScript Array.isArray test. -/
def isArr : JsonV → Bool
  | JsonV.arr _ => true
  | _ => false

/-- Embeds isSearchResultResponse of messageParser.js: the response is
truthy, its results field is an array, and at least one of search_metadata,
query, strategy is truthy. -/
def isSearchResultResponse (v : JsonV) : Bool :=
  truthy v && (isArr (getField v "results") &&
    (truthy (getField v "search_metadata") || truthy (getField v "query") ||
      truthy (getField v "strategy")))

/-- One raw part of an A2A history message, as read by parseMessage. -/
structure RawPart where
  kind : String
  text : String
  adkType : Option String
  dataName : String
  dataId : String
  dataArgs : JsonV
  dataResponse : JsonV

/-- One raw history message; parts is optional because parseMessage guards
against a missing parts array. -/
structure Msg where
  messageId : Option String
  role : String
  contextId : Option String
  taskId : Option String
  parts : Option (List RawPart)

/-- One parsed part, as produced by parseMessage. -/
inductive PPart where
  | ptext (content : String)
  | tool_call (toolName toolId : String) (args : JsonV)
  | tool_response (toolName toolId : String) (response : JsonV)

/-- One parsed message, as produced by parseMessage. -/
structure PMsg where
  id : String
  role : String
  contextId : Option String
  taskId : Option String
  parts : List PPart

/-- Embeds the part translation of parseMessage: text parts become text,
data parts become tool calls or tool responses according to adk_type, and
every other part is dropped. -/
def parsePart (p : RawPart) : Option PPart :=
  if p.kind = "text" then some (PPart.ptext p.text)
  else if p.kind = "data" then
    if p.adkType = some "function_call" then
      some (PPart.tool_call p.dataName p.dataId p.dataArgs)
    else if p.adkType = some "function_response" then
      some (PPart.tool_response p.dataName p.dataId p.dataResponse)
    else none
  else none

/-- Embeds the fallback id of parseMessage: messageId when present and
non-empty (JavaScript truthiness), msg-index otherwise. -/
def msgIdOrIndex (mid : Option String) (i : ℕ) : String :=
  match mid with
  | some s => if s = "" then "msg-" ++ toString i else s
  | none => "msg-" ++ toString i

/-- Embeds parseMessage of messageParser.js. -/
def parseMessage (m : Msg) (i : ℕ) : PMsg :=
  { id := msgIdOrIndex m.messageId i
    role := m.role
    contextId := m.contextId
    taskId := m.taskId
    parts := match m.parts with
      | none => []
      | some ps => ps.filterMap parsePart }

/-- The search payload assembled by extractSearchResults. -/
structure SearchExtract where
  query : JsonV
  strategy : JsonV
  resultCount : JsonV
  scoreRange : JsonV
  results : JsonV

/-- Embeds the metadata assembly of extractSearchResults: each field prefers
the search_metadata value and falls back to the top-level one. -/
def mkSearchExtract (resp : JsonV) : SearchExtract :=
  { query := jsOr (getField (getField resp "search_metadata") "query")
      (getField resp "query")
    strategy := jsOr (getField (getField resp "search_metadata") "strategy")
      (getField resp "strategy")
    resultCount := jsOr (getField (getField resp "search_metadata") "result_count")
      (getField resp "final_count")
    scoreRange := getField (getField resp "search_metadata") "score_range"
    results := jsOr (getField resp "results") (JsonV.arr []) }

/-- One loop step of extractSearchResults: a tool response part whose
response looks like search results yields the extracted payload. -/
def searchPart? : PPart → Option SearchExtract
  | PPart.tool_response _ _ resp =>
      if isSearchResultResponse resp then some (mkSearchExtract resp) else none
  | _ => none

/-- Whether a parsed part is a qualifying search tool response. -/
def isSearchPart : PPart → Bool
  | PPart.tool_response _ _ resp => isSearchResultResponse resp
  | _ => false

/-- Embeds extractSearchResults of messageParser.js. -/
def extractSearchResults (m : PMsg) : Option SearchExtract :=
  if m.role = "agent" then m.parts.findSome? searchPart? else none

/-- Embeds extractPlan of messageParser.js. -/
def extractPlan (m : PMsg) : Option JsonV :=
  if m.role = "agent" then
    m.parts.findSome? (fun p => match p with
      | PPart.tool_response nm _ resp =>
          if nm = "display_investigation_plan" then some (getField resp "plan") else none
      | _ => none)
  else none

/-- The duplicate-removal loop of processHistory, with the set of already
seen message ids made explicit. -/
def dedupeById : List (Option String) → List Msg → List Msg
  | _, [] => []
  | seen, m :: ms =>
    if m.messageId ∈ seen then dedupeById seen ms
    else m :: dedupeById (m.messageId :: seen) ms

/-- Embeds the uniqueHistory filter of processHistory. -/
def uniqueHistory (h : List Msg) : List Msg := dedupeById [] h

/-- The record returned by processHistory. -/
structure ProcessedHistory where
  messages : List PMsg
  plan : Option JsonV
  searchResults : List SearchExtract

/-- Embeds processHistory of messageParser.js: duplicate message ids are
dropped, the remaining messages are parsed in order, the last truthy plan
wins, and every extracted search result is collected. -/
def processHistory (h : List Msg) : ProcessedHistory :=
  { messages := (uniqueHistory h).enum.map (fun p => parseMessage p.2 p.1)
    plan := (((uniqueHistory h).enum.map (fun p => parseMessage p.2 p.1)).filterMap
      (fun m => match extractPlan m with
        | some v => if truthy v then some v else none
        | none => none)).getLast?
    searchResults := ((uniqueHistory h).enum.map
      (fun p => parseMessage p.2 p.1)).filterMap extractSearchResults }

theorem dedupeById_sublist (l : List Msg) :
    ∀ seen, List.Sublist (dedupeById seen l) l := by
  induction l with
  | nil => intro seen; exact List.nil_sublist []
  | cons m ms ih =>
    intro seen
    show List.Sublist
      (if m.messageId ∈ seen then dedupeById seen ms
       else m :: dedupeById (m.messageId :: seen) ms) (m :: ms)
    by_cases h : m.messageId ∈ seen
    · rw [if_pos h]
      exact (ih seen).cons m
    · rw [if_neg h]
      exact (ih (m.messageId :: seen)).cons₂ m

theorem dedupeById_not_seen (l : List Msg) :
    ∀ seen, ∀ m' ∈ dedupeById seen l, m'.messageId ∉ seen := by
  induction l with
  | nil => intro seen m' hm'; cases hm'
  | cons m ms ih =>
    intro seen m' hm'
    have hred : dedupeById seen (m :: ms) =
        (if m.messageId ∈ seen then dedupeById seen ms
         else m :: dedupeById (m.messageId :: seen) ms) := rfl
    rw [hred] at hm'
    by_cases h : m.messageId ∈ seen
    · rw [if_pos h] at hm'
      exact ih seen m' hm'
    · rw [if_neg h] at hm'
      rcases List.mem_cons.1 hm' with he | hin
      · rw [he]; exact h
      · intro hcontra
        exact ih (m.messageId :: seen) m' hin (List.mem_cons_of_mem _ hcontra)

theorem dedupeById_nodup (l : List Msg) :
    ∀ seen, ((dedupeById seen l).map Msg.messageId).Nodup := by
  induction l with
  | nil => intro seen; exact List.nodup_nil
  | cons m ms ih =>
    intro seen
    show ((if m.messageId ∈ seen then dedupeById seen ms
           else m :: dedupeById (m.messageId :: seen) ms).map Msg.messageId).Nodup
    by_cases h : m.messageId ∈ seen
    · rw [if_pos h]
      exact ih seen
    · rw [if_neg h, List.map_cons]
      refine List.nodup_cons.2 ⟨?_, ih (m.messageId :: seen)⟩
      intro hmem
      rcases List.mem_map.1 hmem with ⟨m', hm', he⟩
      exact dedupeById_not_seen ms (m.messageId :: seen) m' hm'
        (he ▸ List.mem_cons_self _ _)

theorem dedupeById_find (l : List Msg) :
    ∀ seen, ∀ m ∈ dedupeById seen l,
      l.find? (fun x => decide (x.messageId = m.messageId)) = some m := by
  induction l with
  | nil => intro seen m hm; cases hm
  | cons a ms ih =>
    intro seen m hm
    have hred : dedupeById seen (a :: ms) =
        (if a.messageId ∈ seen then dedupeById seen ms
         else a :: dedupeById (a.messageId :: seen) ms) := rfl
    rw [hred] at hm
    by_cases h : a.messageId ∈ seen
    · rw [if_pos h] at hm
      have hne : a.messageId ≠ m.messageId := by
        intro he
        exact dedupeById_not_seen ms seen m hm (he ▸ h)
      rw [List.find?_cons_of_neg ms (by simpa using hne)]
      exact ih seen m hm
    · rw [if_neg h] at hm
      rcases List.mem_cons.1 hm with he | hin
      · rw [he]
        exact List.find?_cons_of_pos ms (by simp)
      · have hne : a.messageId ≠ m.messageId := by
          intro he
          exact dedupeById_not_seen ms (a.messageId :: seen) m hin
            (he ▸ List.mem_cons_self _ _)
        rw [List.find?_cons_of_neg ms (by simpa using hne)]
        exact ih (a.messageId :: seen) m hin

theorem dedupeById_covers (l : List Msg) :
    ∀ seen, ∀ m ∈ l, m.messageId ∉ seen →
      ∃ m' ∈ dedupeById seen l, m'.messageId = m.messageId := by
  induction l with
  | nil => intro seen m hm; cases hm
  | cons a ms ih =>
    intro seen m hm hns
    have hred : dedupeById seen (a :: ms) =
        (if a.messageId ∈ seen then dedupeById seen ms
         else a :: dedupeById (a.messageId :: seen) ms) := rfl
    rw [hred]
    by_cases h : a.messageId ∈ seen
    · rw [if_pos h]
      rcases List.mem_cons.1 hm with he | hin
      · exact absurd (by rw [he]; exact h) hns
      · exact ih seen m hin hns
    · rw [if_neg h]
      by_cases hid : a.messageId = m.messageId
      · exact ⟨a, List.mem_cons_self _ _, hid⟩
      · rcases List.mem_cons.1 hm with he | hin
        · exact absurd (by rw [he]) hid
        · rcases ih (a.messageId :: seen) m hin (by
            intro hc
            rcases List.mem_cons.1 hc with he2 | hs
            · exact hid he2.symm
            · exact hns hs) with ⟨m', hm', he'⟩
          exact ⟨m', List.mem_cons_of_mem a hm', he'⟩

/-- C9: processHistory keeps at most one message per messageId: the kept
messages form a sublist of the input (their relative order is the input
order), their ids are pairwise distinct, each kept message is the first
message of the input bearing its id, and every input message has a kept
representative with its id; the returned message list is the in-order
parse of exactly these kept messages. -/
theorem processHistory_dedup (h : List Msg) :
    (processHistory h).messages =
      (uniqueHistory h).enum.map (fun p => parseMessage p.2 p.1) ∧
    List.Sublist (uniqueHistory h) h ∧
    ((uniqueHistory h).map Msg.messageId).Nodup ∧
    (∀ m ∈ uniqueHistory h,
      h.find? (fun x => decide (x.messageId = m.messageId)) = some m) ∧
    (∀ m ∈ h, ∃ m' ∈ uniqueHistory h, m'.messageId = m.messageId) :=
  ⟨rfl, dedupeById_sublist h [], dedupeById_nodup h [],
   fun m hm => dedupeById_find h [] m hm,
   fun m hm => dedupeById_covers h [] m hm (by simp)⟩

/-- A first history message used by the C9 witness. -/
def msgA : Msg := ⟨some "x", "user", none, none, none⟩

/-- A duplicate-id history message used by the C9 witness. -/
def msgB : Msg := ⟨some "x", "agent", none, none, none⟩

/-- Witness for C9 on a two-message history sharing one messageId. -/
theorem processHistory_dedup_witness :
    ((uniqueHistory [msgA, msgB]).map Msg.messageId).Nodup ∧
    (∃ m' ∈ uniqueHistory [msgA, msgB], m'.messageId = msgB.messageId) :=
  ⟨(processHistory_dedup [msgA, msgB]).2.2.1,
   (processHistory_dedup [msgA, msgB]).2.2.2.2 msgB
     (List.mem_cons.2 (Or.inr (List.mem_singleton.2 rfl)))⟩

theorem searchPart?_eq_none (p : PPart) (h : isSearchPart p = false) :
    searchPart? p = none := by
  cases p with
  | ptext c => rfl
  | tool_call a b c => rfl
  | tool_response nm tid resp =>
    have hb : isSearchResultResponse resp = false := h
    simp [searchPart?, hb]

theorem findSome?_search_eq_none (l : List PPart)
    (h : ∀ p ∈ l, isSearchPart p = false) : l.findSome? searchPart? = none := by
  induction l with
  | nil => rfl
  | cons a t ih =>
    rw [List.findSome?_cons_of_isNone t
      (by rw [searchPart?_eq_none a (h a (List.mem_cons_self a t))]; rfl)]
    exact ih (fun p hp => h p (List.mem_cons_of_mem a hp))

theorem findSome?_search_append (pre rest : List PPart)
    (h : ∀ q ∈ pre, isSearchPart q = false) :
    (pre ++ rest).findSome? searchPart? = rest.findSome? searchPart? := by
  induction pre with
  | nil => rfl
  | cons a t ih =>
    rw [List.cons_append, List.findSome?_cons_of_isNone (t ++ rest)
      (by rw [searchPart?_eq_none a (h a (List.mem_cons_self a t))]; rfl)]
    exact ih (fun q hq => h q (List.mem_cons_of_mem a hq))

/-- C10 amended: extractSearchResults returns none (it is a total function,
it never throws) when the message role is not agent or when no part is a
tool response whose response is truthy with an Array-valued results field
and at least one of search_metadata, query, strategy holding a truthy value
(a present but falsy field, such as an empty-string query, does not count);
otherwise it returns the metadata (query, strategy, resultCount, scoreRange)
and results array of the first such tool response part. -/
theorem extractSearchResults_amended (m : PMsg) :
    (m.role ≠ "agent" → extractSearchResults m = none) ∧
    ((∀ p ∈ m.parts, isSearchPart p = false) → extractSearchResults m = none) ∧
    (∀ pre nm tid resp post, m.role = "agent" →
      m.parts = pre ++ PPart.tool_response nm tid resp :: post →
      (∀ q ∈ pre, isSearchPart q = false) →
      isSearchResultResponse resp = true →
      extractSearchResults m = some (mkSearchExtract resp)) := by
  refine ⟨?_, ?_, ?_⟩
  · intro hr
    unfold extractSearchResults
    rw [if_neg hr]
  · intro hall
    unfold extractSearchResults
    by_cases hr : m.role = "agent"
    · rw [if_pos hr]
      exact findSome?_search_eq_none m.parts hall
    · rw [if_neg hr]
  · intro pre nm tid resp post hrole hparts hpre hresp
    unfold extractSearchResults
    rw [if_pos hrole, hparts, findSome?_search_append pre _ hpre,
      List.findSome?_cons_of_isSome post (by simp [searchPart?, hresp])]
    simp [searchPart?, hresp]

/-- Whether a JavaScript value is defined (field presence). -/
def isDefined : JsonV → Bool
  | JsonV.undef => false
  | _ => true

/-- A search-shaped tool response whose query field is present but falsy. -/
def respC : JsonV := JsonV.obj [("results", JsonV.arr []), ("query", JsonV.str "")]

/-- An agent message carrying respC in a tool response part. -/
def msgC : PMsg :=
  { id := "m1", role := "agent", contextId := none, taskId := none,
    parts := [PPart.tool_response "search_reports" "t1" respC] }

/-- Counterexample to C10 as stated: msgC is an agent message with a tool
response part whose response has an Array-valued results field together
with the field query, yet extractSearchResults returns none, because the
code tests JavaScript truthiness of search_metadata, query and strategy
(an empty-string query is falsy), not field presence. -/
theorem extractSearchResults_counterexample :
    msgC.role = "agent" ∧
    isArr (getField respC "results") = true ∧
    isDefined (getField respC "query") = true ∧
    extractSearchResults msgC = none :=
  ⟨rfl, rfl, rfl, rfl⟩

/-- A search-shaped tool response with a truthy query field. -/
def respD : JsonV := JsonV.obj [("results", JsonV.arr []), ("query", JsonV.str "q")]

/-- An agent message with a leading text part and then a qualifying tool
response, used by the C10 witness. -/
def msgD : PMsg :=
  { id := "m2", role := "agent", contextId := none, taskId := none,
    parts := [PPart.ptext "thinking", PPart.tool_response "search_reports" "t2" respD] }

/-- A user-role message used by the C10 witness. -/
def msgU : PMsg :=
  { id := "m0", role := "user", contextId := none, taskId := none, parts := [] }

/-- Witness for the amended C10: a non-agent message yields none, and msgD
yields the payload extracted from its first qualifying tool response. -/
theorem extractSearchResults_amended_witness :
    extractSearchResults msgU = none ∧
    extractSearchResults msgD = some (mkSearchExtract respD) :=
  ⟨(extractSearchResults_amended msgU).1 (by decide),
   (extractSearchResults_amended msgD).2.2 [PPart.ptext "thinking"]
     "search_reports" "t2" respD [] rfl rfl
     (by
       intro q hq
       rw [List.mem_singleton.1 hq]
       rfl)
     rfl⟩

end Frontend
